import Mathlib

/-!
# Verification of the Directory Tree Generator engine

Shallow embedding of `directory_tree_generator.py` (class
`DirectoryTreeGenerator`): the ignore filter, size formatter, the three
recursive tree generators (`generate_tree_text`, `generate_tree_markdown`,
`generate_tree_json`), and the `generate_to_string` orchestrator.

Modelling conventions:
* The filesystem is a finite in-memory tree `FSEntry`.  A directory carries
  the result of `iterdir()` — either the ordered raw listing or the message
  of the `OSError` raised while listing.  The listing order is the (OS
  dependent) order `iterdir` yields entries; Python's `sorted` is stable
  with respect to it.
* `stat()` metadata is carried on entries: `size` for files and, for the
  `show_permissions` annotation, the already-extracted three-character
  permission string (`oct(st_mode)[-3:]`).  `none` models a failing `stat`
  (the code swallows those).
* Python floats: `_format_size` divides by 1024, which is exact in binary
  floating point for sizes below 2^53, so the model tracks the running
  value exactly as a fraction `num / den` with `den` a power of 1024.
  `"%.1f"` rounding is round-half-even, but a dyadic rational times 10 is
  never a half-integer, so plain nearest rounding agrees everywhere the
  model is exact.
* `TreeStats` is mutated by `+=` only; the model returns the per-call
  delta, final stats = initial stats + delta.
-/

/-- `TreeStats` dataclass: four counters, all initialised to 0. -/
structure TreeStats where
  total_dirs : Nat
  total_files : Nat
  skipped : Nat
  errors : Nat
deriving DecidableEq, Repr

instance : Add TreeStats :=
  ⟨fun a b => ⟨a.total_dirs + b.total_dirs, a.total_files + b.total_files,
    a.skipped + b.skipped, a.errors + b.errors⟩⟩

/-- The all-zero statistics (the dataclass defaults / an unchanged delta). -/
def emptyStats : TreeStats := ⟨0, 0, 0, 0⟩

/-- Delta of `self.stats.total_dirs += 1`. -/
def oneDir : TreeStats := ⟨1, 0, 0, 0⟩

/-- Delta of `self.stats.total_files += 1`. -/
def oneFile : TreeStats := ⟨0, 1, 0, 0⟩

/-- Delta of `self.stats.errors += 1`. -/
def oneError : TreeStats := ⟨0, 0, 0, 1⟩

/-- `TreeConfig` dataclass.  `max_depth` is an optional non-negative
integer (`none` = unlimited).  `ignore_patterns` is the user-supplied
pattern collection (Python stores a `set`; only any-match membership is
used, so a list models it). -/
structure TreeConfig where
  max_depth : Option Nat := none
  show_hidden : Bool := false
  dirs_only : Bool := false
  show_size : Bool := false
  show_permissions : Bool := false
  ignore_patterns : List String := []
deriving DecidableEq, Repr

/-- One filesystem entry.  A directory's `listing` is `Except.error msg`
when `iterdir()` raises (permission denied or other OS error) with
`str(e) = msg`, otherwise the raw ordered listing. -/
inductive FSEntry where
  | dir (name : String) (perms : Option String) (listing : Except String (List FSEntry))
  | file (name : String) (size : Option Nat) (perms : Option String)

/-- `Path.name`. -/
def FSEntry.name : FSEntry → String
  | .dir n _ _ => n
  | .file n _ _ => n

/-- `Path.is_dir()`. -/
def FSEntry.isDir : FSEntry → Bool
  | .dir _ _ _ => true
  | .file _ _ _ => false

/-- `Path.stat().st_size` for files (`none` = the stat call fails). -/
def FSEntry.fsize : FSEntry → Option Nat
  | .dir _ _ _ => none
  | .file _ s _ => s

/-- The `oct(stat().st_mode)[-3:]` permission string (`none` = stat fails). -/
def FSEntry.fperms : FSEntry → Option String
  | .dir _ p _ => p
  | .file _ _ p => p

/-- Result of listing an entry: directories yield their `listing`; a file
is never recursed into by the engine (every caller tests `is_dir()`
first), but `iterdir()` on one would raise `NotADirectoryError`, which the
generic `except` clauses catch like any other listing failure. -/
def listingOf : FSEntry → Except String (List FSEntry)
  | .dir _ _ r => r
  | .file _ _ _ => .error "[Errno 20] Not a directory"

/-- Python `str.startswith` (character-list prefix test). -/
def strStarts (s pre : String) : Bool := pre.data.isPrefixOf s.data

/-- Python `str.endswith` (character-list suffix test). -/
def strEnds (s suf : String) : Bool := suf.data.isSuffixOf s.data

/-- Python `'*' in pattern` (character membership). -/
def strHasStar (s : String) : Bool := s.data.contains '*'

/-- `DEFAULT_IGNORE`: the fixed built-in ignore set. -/
def DEFAULT_IGNORE : List String :=
  ["__pycache__", ".git", ".svn", ".hg", "node_modules",
   ".idea", ".vscode", ".DS_Store", "venv", "env",
   ".pytest_cache", ".mypy_cache", "__MACOSX"]

/-- `self.ignore_patterns = self.DEFAULT_IGNORE | self.config.ignore_patterns`
(the union computed in `__init__`). -/
def mergedIgnore (cfg : TreeConfig) : List String :=
  DEFAULT_IGNORE ++ cfg.ignore_patterns

/-- `DirectoryTreeGenerator.should_ignore`: hidden-entry check, exact
membership, then single leading/trailing wildcard matching. -/
def should_ignore (cfg : TreeConfig) (entry : String) : Bool :=
  if !cfg.show_hidden && strStarts entry "." then true
  else if (mergedIgnore cfg).contains entry then true
  else (mergedIgnore cfg).any fun pat =>
    if strHasStar pat then
      if strStarts pat "*" then strEnds entry (pat.drop 1)
      else if strEnds pat "*" then strStarts entry (pat.dropRight 1)
      else false
    else false

/-- Python `str.lower()`: lower-case each character (ASCII model of the
Unicode mapping, which the repository's names stay within). -/
def strLower (s : String) : String := ⟨s.data.map Char.toLower⟩

/-- The sort key `lambda p: (not p.is_dir(), p.name.lower())`. -/
def keyOf (e : FSEntry) : Bool × String := (! e.isDir, strLower e.name)

/-- `≤` on sort keys: tuple (lexicographic) comparison, `False < True` on
the first component, code-point (character-list) lexicographic order on
the second, as Python compares strings. -/
def entryLE (a b : FSEntry) : Prop :=
  ((keyOf a).1 = false ∧ (keyOf b).1 = true) ∨
    ((keyOf a).1 = (keyOf b).1 ∧ (keyOf a).2.data ≤ (keyOf b).2.data)

instance : DecidableRel entryLE := fun a b => by
  unfold entryLE; infer_instance

instance : IsTotal FSEntry entryLE :=
  ⟨by
    intro a b
    unfold entryLE
    rcases h1 : (keyOf a).1 <;> rcases h2 : (keyOf b).1 <;>
      simp [h1, h2, le_total]⟩

instance : IsTrans FSEntry entryLE :=
  ⟨by
    intro a b c hab hbc
    unfold entryLE at *
    rcases hab with ⟨h1, h2⟩ | ⟨h1, h2⟩ <;> rcases hbc with ⟨h3, h4⟩ | ⟨h3, h4⟩
    · exact absurd h3 (by simp [h2])
    · exact Or.inl ⟨h1, h3 ▸ h2⟩
    · exact Or.inl ⟨h1 ▸ h3, h4⟩
    · exact Or.inr ⟨h1.trans h3, h2.trans h4⟩⟩

/-- `sorted(directory.iterdir(), key=lambda p: (not p.is_dir(), p.name.lower()))`:
Python's `sorted` is a stable sort by the key; insertion sort inserting
before the first element that is `≥` is stable. -/
def sortEntries (l : List FSEntry) : List FSEntry :=
  List.insertionSort entryLE l

/-- The filter comprehension
`[e for e in entries if not should_ignore(e.name) and (not dirs_only or e.is_dir())]`. -/
def keepEntry (cfg : TreeConfig) (e : FSEntry) : Bool :=
  !should_ignore cfg e.name && (!cfg.dirs_only || e.isDir)

/-- The sorted-and-filtered child list every generator iterates over. -/
def renderedChildren (cfg : TreeConfig) (l : List FSEntry) : List FSEntry :=
  (sortEntries l).filter (keepEntry cfg)

/-- The `max_depth` guard `self.config.max_depth is not None and depth > self.config.max_depth`. -/
def depthExceeded (cfg : TreeConfig) (depth : Nat) : Bool :=
  match cfg.max_depth with
  | some n => decide (n < depth)
  | none => false

/-- The unit list `['B', 'KB', 'MB', 'GB', 'TB']` of `_format_size`
(`PB` is the fall-through unit after the loop). -/
def sizeUnits : List String := ["B", "KB", "MB", "GB", "TB"]

/-- `f"{x:.1f}"` for the running value `num / den` of the `_format_size`
loop (`den` is the power of 1024 accumulated by the divisions, so the
value is a non-negative dyadic rational): round `10 * num / den` to the
nearest integer — `⌊10 * num / den + 1 / 2⌋ = (20 * num + den) / (2 * den)`
in natural division — and print with one fractional digit.  (`%.1f`
rounds half-to-even, but ten times a dyadic rational is never a
half-integer, so nearest rounding agrees wherever the model is exact.) -/
def renderOneDec (num den : Nat) : String :=
  let n : Nat := (20 * num + den) / (2 * den)
  toString (n / 10) ++ "." ++ toString (n % 10)

/-- The loop of `_format_size`: for each unit, return if the running value
`num / den` is below 1024, else divide by 1024 (tracked exactly by scaling
`den`) and advance; after `TB` the value is rendered in `PB`. -/
def formatSizeGo (num den : Nat) : List String → String
  | [] => "(" ++ renderOneDec num den ++ "PB)"
  | u :: us =>
    if num < 1024 * den then "(" ++ renderOneDec num den ++ u ++ ")"
    else formatSizeGo num (den * 1024) us

/-- `DirectoryTreeGenerator._format_size` (exact model of the float
computation; division by 1024 is exact in binary floating point for the
sizes where the model is used). -/
def format_size (size : Nat) : String := formatSizeGo size 1 sizeUnits

/-- Number of divisions `_format_size` performs before rendering, over a
remaining unit list. -/
def unitIdxGo (num den : Nat) : List String → Nat
  | [] => 0
  | _ :: us => if num < 1024 * den then 0 else unitIdxGo num (den * 1024) us + 1

/-- The index of the unit `_format_size` renders `size` in
(0 = `B`, 1 = `KB`, ..., 5 = `PB`). -/
def unitIdx (size : Nat) : Nat := unitIdxGo size 1 sizeUnits

/-- `DirectoryTreeGenerator.get_entry_info`: optional size annotation
(files only) and optional permission annotation; a failing `stat` is
swallowed and the annotation omitted. -/
def get_entry_info (cfg : TreeConfig) (e : FSEntry) : String :=
  let sizePart : List String :=
    if cfg.show_size && !e.isDir then
      match e.fsize with
      | some s => [format_size s]
      | none => []
    else []
  let permPart : List String :=
    if cfg.show_permissions then
      match e.fperms with
      | some p => ["[" ++ p ++ "]"]
      | none => []
    else []
  let parts := sizePart ++ permPart
  if parts.isEmpty then "" else " " ++ String.intercalate " " parts

/-- The `TEE` tree-drawing connector. -/
def TEE : String := "├──"

/-- The `ELBOW` tree-drawing connector. -/
def ELBOW : String := "└──"

/-- The `SPACE` continuation padding. -/
def SPACE : String := "    "

/-- The `PIPE_SPACE` continuation padding. -/
def PIPE_SPACE : String := "│   "

/-- `"  " * depth`, the Markdown indent. -/
def mdIndent : Nat → String
  | 0 => ""
  | n + 1 => mdIndent n ++ "  "

/-- The JSON value shapes `generate_tree_json` produces: the bare `{}`
returned past `max_depth`, a file object `{name, type: "file", size?}`,
and a directory object `{name, type: "directory", children, error?}`. -/
inductive JVal where
  | empty
  | fileJ (name : String) (size : Option Nat)
  | dirJ (name : String) (children : List JVal) (error : Option String)

theorem sizeOf_sortEntries (l : List FSEntry) : sizeOf (sortEntries l) = sizeOf l := by
  have h : ∀ (a : FSEntry) (m : List FSEntry),
      sizeOf (List.orderedInsert entryLE a m) = 1 + sizeOf a + sizeOf m := by
    intro a m
    induction m with
    | nil => simp [List.orderedInsert]
    | cons b t ih =>
      by_cases hab : entryLE a b
      · simp [List.orderedInsert, hab]
      · simp [List.orderedInsert, hab, ih]
        omega
  induction l with
  | nil => rfl
  | cons a t ih =>
    simp only [sortEntries, List.insertionSort] at *
    rw [h a (List.insertionSort entryLE t), ih]
    simp

theorem sizeOf_filter_le (p : FSEntry → Bool) (l : List FSEntry) :
    sizeOf (l.filter p) ≤ sizeOf l := by
  induction l with
  | nil => simp
  | cons a t ih =>
    by_cases h : p a
    · simp [List.filter, h]; omega
    · simp [List.filter, h]; omega

theorem sizeOf_renderedChildren_lt (cfg : TreeConfig) (n : String) (p : Option String)
    (l : List FSEntry) :
    sizeOf (renderedChildren cfg l) < sizeOf (FSEntry.dir n p (Except.ok l)) := by
  have h1 : sizeOf (renderedChildren cfg l) ≤ sizeOf l := by
    calc sizeOf (renderedChildren cfg l) ≤ sizeOf (sortEntries l) :=
          sizeOf_filter_le _ _
      _ = sizeOf l := sizeOf_sortEntries l
  have h2 : sizeOf l < sizeOf (FSEntry.dir n p (Except.ok l)) := by
    simp [FSEntry.dir.sizeOf_spec]
    omega
  omega

mutual
/-- `DirectoryTreeGenerator.generate_tree_text`: returns the list of tree
lines for the contents of `e` and the statistics delta of the call
(`self.stats` is only ever incremented, so the final counters are the
initial ones plus this delta). -/
def generate_tree_text (cfg : TreeConfig) (e : FSEntry) (pre : String) (depth : Nat) :
    List String × TreeStats :=
  if depthExceeded cfg depth then ([], emptyStats)
  else
    match e with
    | .file _ _ _ => ([], oneError)
    | .dir _ _ (.error _) => ([], oneError)
    | .dir _ _ (.ok l) => goText cfg pre depth (renderedChildren cfg l)
termination_by sizeOf e
decreasing_by
  exact sizeOf_renderedChildren_lt ..

/-- The `for i, entry in enumerate(entries)` loop of `generate_tree_text`:
the last entry gets the elbow connector and blank continuation padding,
earlier entries the tee connector and pipe padding; subdirectories are
recursed at `depth + 1`. -/
def goText (cfg : TreeConfig) (pre : String) (depth : Nat) :
    List FSEntry → List String × TreeStats
  | [] => ([], emptyStats)
  | entry :: rest =>
    let isLast := rest.isEmpty
    let connector := if isLast then ELBOW else TEE
    let line := pre ++ connector ++ " " ++ entry.name ++ get_entry_info cfg entry
    let entStat := if entry.isDir then oneDir else oneFile
    let sub :=
      if entry.isDir then
        generate_tree_text cfg entry (pre ++ (if isLast then SPACE else PIPE_SPACE)) (depth + 1)
      else ([], emptyStats)
    let restRes := goText cfg pre depth rest
    (line :: (sub.1 ++ restRes.1), entStat + sub.2 + restRes.2)
termination_by es => sizeOf es
decreasing_by
  all_goals (simp; try omega)
end

mutual
/-- `DirectoryTreeGenerator.generate_tree_markdown`: Markdown lines for the
contents of `e` plus the statistics delta. -/
def generate_tree_markdown (cfg : TreeConfig) (e : FSEntry) (depth : Nat) :
    List String × TreeStats :=
  if depthExceeded cfg depth then ([], emptyStats)
  else
    match e with
    | .file _ _ _ => ([], oneError)
    | .dir _ _ (.error _) => ([], oneError)
    | .dir _ _ (.ok l) => goMd cfg depth (renderedChildren cfg l)
termination_by sizeOf e
decreasing_by
  exact sizeOf_renderedChildren_lt ..

/-- The entry loop of `generate_tree_markdown`: directories render as
`- **name/**` and recurse, files as `- name` with the optional info suffix. -/
def goMd (cfg : TreeConfig) (depth : Nat) : List FSEntry → List String × TreeStats
  | [] => ([], emptyStats)
  | entry :: rest =>
    let head :=
      if entry.isDir then
        let sub := generate_tree_markdown cfg entry (depth + 1)
        ((mdIndent depth ++ "- **" ++ entry.name ++ "/**") :: sub.1, oneDir + sub.2)
      else
        ([mdIndent depth ++ "- " ++ entry.name ++ get_entry_info cfg entry], oneFile)
    let restRes := goMd cfg depth rest
    (head.1 ++ restRes.1, head.2 + restRes.2)
termination_by es => sizeOf es
decreasing_by
  all_goals (simp; try omega)
end

mutual
/-- `DirectoryTreeGenerator.generate_tree_json`: the JSON object for `e`
(`{}` past `max_depth`, a directory object with an `error` key on a
listing failure) plus the statistics delta. -/
def generate_tree_json (cfg : TreeConfig) (e : FSEntry) (depth : Nat) : JVal × TreeStats :=
  if depthExceeded cfg depth then (.empty, emptyStats)
  else
    match e with
    | .file n _ _ => (.dirJ n [] (some "[Errno 20] Not a directory"), oneError)
    | .dir n _ (.error m) => (.dirJ n [] (some m), oneError)
    | .dir n _ (.ok l) =>
      let ch := goJson cfg depth (renderedChildren cfg l)
      (.dirJ n ch.1 none, ch.2)
termination_by sizeOf e
decreasing_by
  exact sizeOf_renderedChildren_lt ..

/-- The entry loop of `generate_tree_json`: directory entries are counted
and recursed at `depth + 1`; file entries are counted and rendered with a
`size` key exactly when `show_size` is set and `stat` succeeds. -/
def goJson (cfg : TreeConfig) (depth : Nat) : List FSEntry → List JVal × TreeStats
  | [] => ([], emptyStats)
  | entry :: rest =>
    let head : JVal × TreeStats :=
      if entry.isDir then
        let sub := generate_tree_json cfg entry (depth + 1)
        (sub.1, oneDir + sub.2)
      else
        (.fileJ entry.name (if cfg.show_size then entry.fsize else none), oneFile)
    let restRes := goJson cfg depth rest
    (head.1 :: restRes.1, head.2 + restRes.2)
termination_by es => sizeOf es
decreasing_by
  all_goals (simp; try omega)
end

/-- The canonical in-memory tree the spec calls `Node`: one entry per
surviving filesystem entry, in rendered order, with the metadata the
renderers consume. -/
inductive Node where
  | dirN (name : String) (perms : Option String) (children : List Node)
  | fileN (name : String) (size : Option Nat) (perms : Option String)
  | errorN (name : String) (perms : Option String) (msg : String)

/-- Name of a `Node`. -/
def nodeName : Node → String
  | .dirN n _ _ => n
  | .fileN n _ _ => n
  | .errorN n _ _ => n

/-- Whether a `Node` stands for a directory (error nodes are unreadable
directories, so `is_dir()` is true for them). -/
def nodeIsDir : Node → Bool
  | .dirN _ _ _ => true
  | .fileN _ _ _ => false
  | .errorN _ _ _ => true

/-- Stored file size of a `Node`. -/
def nodeSize : Node → Option Nat
  | .fileN _ s _ => s
  | _ => none

/-- Stored permission string of a `Node`. -/
def nodePerms : Node → Option String
  | .dirN _ p _ => p
  | .fileN _ _ p => p
  | .errorN _ p _ => p

mutual
/-- The canonical traversal `walk(path, depth) -> Node` the spec
describes: sort, filter, recurse into directories (childless once `depth`
exceeds `max_depth`), record listing failures as error nodes. -/
def walkT (cfg : TreeConfig) (e : FSEntry) (depth : Nat) : Node :=
  match e with
  | .file n s p => .fileN n s p
  | .dir n p lst =>
    if depthExceeded cfg depth then .dirN n p []
    else
      match lst with
      | .error m => .errorN n p m
      | .ok l => .dirN n p (walkChildren cfg (depth + 1) (renderedChildren cfg l))
termination_by sizeOf e
decreasing_by
  exact sizeOf_renderedChildren_lt ..

/-- `walkT` applied to each child in order. -/
def walkChildren (cfg : TreeConfig) (depth : Nat) : List FSEntry → List Node
  | [] => []
  | e :: rest => walkT cfg e depth :: walkChildren cfg depth rest
termination_by es => sizeOf es
decreasing_by
  all_goals (simp; try omega)
end

/-- `get_entry_info` expressed on the canonical node (same size and
permission annotations, read from the stored metadata). -/
def nodeInfo (cfg : TreeConfig) (c : Node) : String :=
  let sizePart : List String :=
    if cfg.show_size && !nodeIsDir c then
      match nodeSize c with
      | some s => [format_size s]
      | none => []
    else []
  let permPart : List String :=
    if cfg.show_permissions then
      match nodePerms c with
      | some p => ["[" ++ p ++ "]"]
      | none => []
    else []
  let parts := sizePart ++ permPart
  if parts.isEmpty then "" else " " ++ String.intercalate " " parts

mutual
/-- Text rendering as a pure projection of a canonical node: the lines for
the node's contents (the node's own line belongs to its parent). -/
def textOfNode (cfg : TreeConfig) (pre : String) : Node → List String
  | .fileN _ _ _ => []
  | .errorN _ _ _ => []
  | .dirN _ _ ch => textGo cfg pre ch
termination_by c => sizeOf c
decreasing_by
  all_goals (simp; try omega)

/-- Sibling loop of the text projection. -/
def textGo (cfg : TreeConfig) (pre : String) : List Node → List String
  | [] => []
  | c :: rest =>
    let isLast := rest.isEmpty
    let line := pre ++ (if isLast then ELBOW else TEE) ++ " " ++ nodeName c ++ nodeInfo cfg c
    line :: (textOfNode cfg (pre ++ (if isLast then SPACE else PIPE_SPACE)) c ++
      textGo cfg pre rest)
termination_by cs => sizeOf cs
decreasing_by
  all_goals (simp; try omega)
end

mutual
/-- Markdown rendering as a pure projection of a canonical node. -/
def mdOfNode (cfg : TreeConfig) (depth : Nat) : Node → List String
  | .fileN _ _ _ => []
  | .errorN _ _ _ => []
  | .dirN _ _ ch => mdGo cfg depth ch
termination_by c => sizeOf c
decreasing_by
  all_goals (simp; try omega)

/-- Sibling loop of the Markdown projection. -/
def mdGo (cfg : TreeConfig) (depth : Nat) : List Node → List String
  | [] => []
  | c :: rest =>
    (if nodeIsDir c then
      (mdIndent depth ++ "- **" ++ nodeName c ++ "/**") :: mdOfNode cfg (depth + 1) c
    else [mdIndent depth ++ "- " ++ nodeName c ++ nodeInfo cfg c]) ++ mdGo cfg depth rest
termination_by cs => sizeOf cs
decreasing_by
  all_goals (simp; try omega)
end

mutual
/-- JSON rendering as a pure projection of a canonical node. -/
def jsonOfNode (cfg : TreeConfig) : Node → JVal
  | .fileN n s _ => .fileJ n (if cfg.show_size then s else none)
  | .errorN n _ m => .dirJ n [] (some m)
  | .dirN n _ ch => .dirJ n (jsonGo cfg ch) none
termination_by c => sizeOf c
decreasing_by
  all_goals (simp; try omega)

/-- Sibling loop of the JSON projection. -/
def jsonGo (cfg : TreeConfig) : List Node → List JVal
  | [] => []
  | c :: rest => jsonOfNode cfg c :: jsonGo cfg rest
termination_by cs => sizeOf cs
decreasing_by
  all_goals (simp; try omega)
end

mutual
/-- Keep a canonical tree only down to `budget` further levels: at budget
zero a directory (or unreadable directory, whose listing is then never
attempted) keeps its name but loses contents. -/
def truncateNode : Nat → Node → Node
  | _, .fileN n s p => .fileN n s p
  | 0, .dirN n p _ => .dirN n p []
  | 0, .errorN n p _ => .dirN n p []
  | k + 1, .dirN n p ch => .dirN n p (truncateL k ch)
  | _ + 1, .errorN n p m => .errorN n p m
termination_by _ c => sizeOf c
decreasing_by
  all_goals (simp; try omega)

/-- `truncateNode` applied to each child. -/
def truncateL : Nat → List Node → List Node
  | _, [] => []
  | k, c :: rest => truncateNode k c :: truncateL k rest
termination_by _ cs => sizeOf cs
decreasing_by
  all_goals (simp; try omega)
end

mutual
/-- Number of objects with `"type": "directory"` in a JSON value (error
objects carry that type too; the bare `{}` has no type). -/
def jDirCount : JVal → Nat
  | .empty => 0
  | .fileJ _ _ => 0
  | .dirJ _ ch _ => 1 + jDirCountL ch
termination_by v => sizeOf v
decreasing_by
  all_goals (simp; try omega)

/-- Directory-object count of a list of JSON values. -/
def jDirCountL : List JVal → Nat
  | [] => 0
  | v :: vs => jDirCount v + jDirCountL vs
termination_by vs => sizeOf vs
decreasing_by
  all_goals (simp; try omega)
end

mutual
/-- Number of objects with `"type": "file"` in a JSON value. -/
def jFileCount : JVal → Nat
  | .empty => 0
  | .fileJ _ _ => 1
  | .dirJ _ ch _ => jFileCountL ch
termination_by v => sizeOf v
decreasing_by
  all_goals (simp; try omega)

/-- File-object count of a list of JSON values. -/
def jFileCountL : List JVal → Nat
  | [] => 0
  | v :: vs => jFileCount v + jFileCountL vs
termination_by vs => sizeOf vs
decreasing_by
  all_goals (simp; try omega)
end

mutual
/-- Every `"name"` value occurring in a JSON value. -/
def jNames : JVal → List String
  | .empty => []
  | .fileJ n _ => [n]
  | .dirJ n ch _ => n :: jNamesL ch
termination_by v => sizeOf v
decreasing_by
  all_goals (simp; try omega)

/-- Every `"name"` value occurring in a list of JSON values. -/
def jNamesL : List JVal → List String
  | [] => []
  | v :: vs => jNames v ++ jNamesL vs
termination_by vs => sizeOf vs
decreasing_by
  all_goals (simp; try omega)
end

/-- The names in a JSON value below its outermost object. -/
def jChildNames : JVal → List String
  | .dirJ _ ch _ => jNamesL ch
  | _ => []

mutual
/-- Names of all nodes strictly below a canonical node. -/
def nodeDescNames : Node → List String
  | .dirN _ _ ch => descGo ch
  | .fileN _ _ _ => []
  | .errorN _ _ _ => []
termination_by c => sizeOf c
decreasing_by
  all_goals (simp; try omega)

/-- Names of a child list together with everything below it. -/
def descGo : List Node → List String
  | [] => []
  | c :: rest => nodeName c :: (nodeDescNames c ++ descGo rest)
termination_by cs => sizeOf cs
decreasing_by
  all_goals (simp; try omega)
end

/-- `OutputFormat` enum. -/
inductive OutputFormat where
  | text
  | markdown
  | html
  | json
deriving DecidableEq, Repr

/-- `'\n'.join(lines)`. -/
def joinLines (ls : List String) : String := String.intercalate "\n" ls

mutual
/-- Compact serialization of a `JVal` — an abstraction of `json.dumps`
(field order faithful to insertion order in the code; `indent=2`
whitespace not reproduced; no claim inspects the serialized text). -/
def jsonRender : JVal → String
  | .empty => "\x7b\x7d"
  | .fileJ n s =>
    "\x7b\"name\": \"" ++ n ++ "\", \"type\": \"file\"" ++
      (match s with
      | some v => ", \"size\": " ++ toString v
      | none => "") ++ "\x7d"
  | .dirJ n ch err =>
    "\x7b\"name\": \"" ++ n ++ "\", \"type\": \"directory\", \"children\": [" ++
      jsonRenderL ch ++ "]" ++
      (match err with
      | some m => ", \"error\": \"" ++ m ++ "\""
      | none => "") ++ "\x7d"
termination_by v => sizeOf v
decreasing_by
  all_goals (simp; try omega)

/-- Comma-separated serialization of a list of JSON values. -/
def jsonRenderL : List JVal → String
  | [] => ""
  | [v] => jsonRender v
  | v :: vs => jsonRender v ++ ", " ++ jsonRenderL vs
termination_by vs => sizeOf vs
decreasing_by
  all_goals (simp; try omega)
end

/-- What resolving the `directory` argument finds: no such path, an
existing non-directory, or an existing directory with contents `e`.
`generate_to_string` validates in this order before any traversal. -/
inductive PathState where
  | missing
  | notDir (e : FSEntry)
  | isDir (e : FSEntry)

/-- `DirectoryTreeGenerator.generate_to_string`.  The validation failures
(`FileNotFoundError` / `NotADirectoryError`) and the uncaught `TypeError`
of the HTML branch — which calls `generate_tree_html(dir_path)` without
the required `tree_data` parameter (source line 780) — are modelled as
`Except.error`; all happen before any traversal, so the statistics delta
of an error outcome is zero. -/
def generate_to_string (cfg : TreeConfig) (fmt : OutputFormat) (ps : PathState) :
    Except String (String × TreeStats) :=
  match ps with
  | .missing => .error "Directory not found"
  | .notDir _ => .error "Not a directory"
  | .isDir e =>
    match fmt with
    | .text =>
      let r := generate_tree_text cfg e "" 0
      .ok (joinLines (e.name :: r.1), r.2)
    | .markdown =>
      let r := generate_tree_markdown cfg e 0
      .ok (joinLines (("# " ++ e.name) :: "" :: r.1), r.2)
    | .html =>
      .error "TypeError: generate_tree_html() missing 1 required positional argument: tree_data"
    | .json =>
      let r := generate_tree_json cfg e 0
      .ok (jsonRender r.1, r.2)

/-- The claim's reading of the matching rule of `should_ignore`: hidden
check, then any pattern that equals the name, or is of the form `*suffix`
with the name ending in the suffix, or of the form `prefix*` with the name
starting with the prefix. -/
def claimIgnoreSpec (cfg : TreeConfig) (entry : String) : Bool :=
  (!cfg.show_hidden && strStarts entry ".") ||
    (mergedIgnore cfg).any fun pat =>
      entry == pat ||
        (strStarts pat "*" && strEnds entry (pat.drop 1)) ||
        (strEnds pat "*" && strStarts entry (pat.dropRight 1))

/-- The amended reading: as the claim, except that the `prefix*` rule
applies only to patterns that do not also begin with `*` (the code's
`elif` gives the leading wildcard precedence). -/
def amendedIgnoreSpec (cfg : TreeConfig) (entry : String) : Bool :=
  (!cfg.show_hidden && strStarts entry ".") ||
    (mergedIgnore cfg).contains entry ||
    (mergedIgnore cfg).any fun pat =>
      (strStarts pat "*" && strEnds entry (pat.drop 1)) ||
        (!strStarts pat "*" && strEnds pat "*" && strStarts entry (pat.dropRight 1))

theorem statsAdd (a b : TreeStats) :
    a + b = ⟨a.total_dirs + b.total_dirs, a.total_files + b.total_files,
      a.skipped + b.skipped, a.errors + b.errors⟩ := rfl

theorem skipped_add (a b : TreeStats) : (a + b).skipped = a.skipped + b.skipped := rfl

theorem errors_add (a b : TreeStats) : (a + b).errors = a.errors + b.errors := rfl

theorem dirs_add (a b : TreeStats) : (a + b).total_dirs = a.total_dirs + b.total_dirs := rfl

theorem files_add (a b : TreeStats) : (a + b).total_files = a.total_files + b.total_files := rfl

theorem one_le_sizeOf_entry (e : FSEntry) : 1 ≤ sizeOf e := by
  cases e <;> simp_arith

theorem one_le_sizeOf_entries (l : List FSEntry) : 1 ≤ sizeOf l := by
  cases l <;> simp_arith

theorem unitIdxGo_mono (us : List String) :
    ∀ n1 n2 den : Nat, n1 ≤ n2 → unitIdxGo n1 den us ≤ unitIdxGo n2 den us := by
  induction us with
  | nil => intro n1 n2 den _; simp [unitIdxGo]
  | cons u us ih =>
    intro n1 n2 den h
    simp only [unitIdxGo]
    by_cases h1 : n1 < 1024 * den
    · rw [if_pos h1]; exact Nat.zero_le _
    · have h2 : ¬ n2 < 1024 * den := by omega
      rw [if_neg h1, if_neg h2]
      exact Nat.succ_le_succ (ih n1 n2 (den * 1024) h)

theorem renderOneDec_shape (num den : Nat) :
    ∃ a b : Nat, b < 10 ∧ renderOneDec num den = toString a ++ "." ++ toString b :=
  ⟨(20 * num + den) / (2 * den) / 10, (20 * num + den) / (2 * den) % 10,
    Nat.mod_lt _ (by norm_num), rfl⟩

theorem formatSizeGo_shape (us : List String) :
    ∀ num den : Nat, ∃ (a b : Nat) (u : String), u ∈ ("PB" :: us) ∧ b < 10 ∧
      formatSizeGo num den us = "(" ++ (toString a ++ "." ++ toString b) ++ u ++ ")" := by
  induction us with
  | nil =>
    intro num den
    obtain ⟨a, b, hb, hr⟩ := renderOneDec_shape num den
    refine ⟨a, b, "PB", by simp, hb, ?_⟩
    show "(" ++ renderOneDec num den ++ "PB)" = _
    rw [hr, String.append_assoc ("(" ++ (toString a ++ "." ++ toString b)) "PB" ")"]
    rfl
  | cons u us ih =>
    intro num den
    by_cases h : num < 1024 * den
    · obtain ⟨a, b, hb, hr⟩ := renderOneDec_shape num den
      refine ⟨a, b, u, by simp, hb, ?_⟩
      show formatSizeGo num den (u :: us) = _
      unfold formatSizeGo
      rw [if_pos h, hr]
    · obtain ⟨a, b, v, hv, hb, he⟩ := ih num (den * 1024)
      refine ⟨a, b, v, ?_, hb, ?_⟩
      · rcases List.mem_cons.mp hv with hv | hv
        · exact List.mem_cons.mpr (Or.inl hv)
        · exact List.mem_cons.mpr (Or.inr (List.mem_cons.mpr (Or.inr hv)))
      · show formatSizeGo num den (u :: us) = _
        unfold formatSizeGo
        rw [if_neg h]
        exact he

/-- C6: `_format_size` advances through the unit labels by repeated
division by 1024 and renders with exactly one fractional digit; it is
monotone in the unit reached, and `100`, `1024` and `1048576` bytes render
as `(100.0B)`, `(1.0KB)` and `(1.0MB)` respectively. -/
theorem C6_format_size_spec :
    format_size 100 = "(100.0B)" ∧ format_size 1024 = "(1.0KB)" ∧
      format_size 1048576 = "(1.0MB)" ∧
      (∀ a b : Nat, a ≤ b → unitIdx a ≤ unitIdx b) ∧
      (∀ s : Nat, ∃ (a b : Nat) (u : String), u ∈ ("PB" :: sizeUnits) ∧ b < 10 ∧
        format_size s = "(" ++ (toString a ++ "." ++ toString b) ++ u ++ ")") :=
  ⟨by decide, by decide, by decide,
    fun a b h => unitIdxGo_mono sizeUnits a b 1 h,
    fun s => formatSizeGo_shape sizeUnits s 1⟩

/-- Witness for C6 at a concrete input: `1024 ≤ 1048576`, and the unit of
`1024` bytes (KB) is no later than the unit of `1048576` bytes (MB). -/
theorem C6_format_size_spec_witness :
    1024 ≤ 1048576 ∧ unitIdx 1024 ≤ unitIdx 1048576 :=
  ⟨by decide, C6_format_size_spec.2.2.2.1 1024 1048576 (by decide)⟩

theorem star_mem_of_leading (l : List Char) (h : (['*'].isPrefixOf l) = true) : '*' ∈ l := by
  cases l with
  | nil => simp [List.isPrefixOf] at h
  | cons b bs =>
    simp [List.isPrefixOf] at h
    exact h ▸ List.mem_cons_self _ _

theorem star_mem_of_suffix (l : List Char) (h : (['*'].isSuffixOf l) = true) : '*' ∈ l := by
  unfold List.isSuffixOf at h
  exact List.mem_reverse.mp (star_mem_of_leading _ h)

theorem starts_star_hasStar (p : String) (h : strStarts p "*" = true) : strHasStar p = true := by
  unfold strStarts at h
  unfold strHasStar
  exact List.elem_eq_true_of_mem (star_mem_of_leading _ h)

theorem ends_star_hasStar (p : String) (h : strEnds p "*" = true) : strHasStar p = true := by
  unfold strEnds at h
  unfold strHasStar
  exact List.elem_eq_true_of_mem (star_mem_of_suffix _ h)

theorem wildcard_branch_eq (entry pat : String) :
    (if strHasStar pat then
        if strStarts pat "*" then strEnds entry (pat.drop 1)
        else if strEnds pat "*" then strStarts entry (pat.dropRight 1)
        else false
      else false) =
      ((strStarts pat "*" && strEnds entry (pat.drop 1)) ||
        (!strStarts pat "*" && strEnds pat "*" && strStarts entry (pat.dropRight 1))) := by
  by_cases h1 : strStarts pat "*" = true
  · simp [h1, starts_star_hasStar pat h1]
  · have h1' : strStarts pat "*" = false := by simpa using h1
    by_cases h2 : strEnds pat "*" = true
    · simp [h1', h2, ends_star_hasStar pat h2]
    · have h2' : strEnds pat "*" = false := by simpa using h2
      by_cases h3 : strHasStar pat = true <;>
        simp_all [h1', h2']

theorem should_ignore_eq_amended (cfg : TreeConfig) (entry : String) :
    should_ignore cfg entry = amendedIgnoreSpec cfg entry := by
  unfold should_ignore amendedIgnoreSpec
  have hAny : ((mergedIgnore cfg).any fun pat =>
      if strHasStar pat then
        if strStarts pat "*" then strEnds entry (pat.drop 1)
        else if strEnds pat "*" then strStarts entry (pat.dropRight 1)
        else false
      else false) = ((mergedIgnore cfg).any fun pat =>
        (strStarts pat "*" && strEnds entry (pat.drop 1)) ||
          (!strStarts pat "*" && strEnds pat "*" && strStarts entry (pat.dropRight 1))) := by
    exact congrArg _ (funext fun pat => wildcard_branch_eq entry pat)
  rw [hAny]
  by_cases hh : (!cfg.show_hidden && strStarts entry ".") = true
  · simp [hh]
  · have hh' : (!cfg.show_hidden && strStarts entry ".") = false := by simpa using hh
    by_cases hc : (mergedIgnore cfg).contains entry = true
    · simp [hh', hc]
    · have hc' : (mergedIgnore cfg).contains entry = false := by simpa using hc
      simp [hh', hc']

/-- C4 (amended): `should_ignore` is the hidden check, or exact membership
in the merged set, or a `*suffix` match, or — for patterns that do not
also begin with `*` (the code's `elif` gives the leading wildcard
precedence) — a `prefix*` match; the merged set always contains the
defaults, so every default name such as `__pycache__` or `node_modules`
is ignored under every configuration. -/
theorem C4_should_ignore_amended :
    (∀ cfg entry, should_ignore cfg entry = amendedIgnoreSpec cfg entry) ∧
      (∀ (cfg : TreeConfig) (d : String), d ∈ DEFAULT_IGNORE → should_ignore cfg d = true) := by
  refine ⟨should_ignore_eq_amended, ?_⟩
  intro cfg d hd
  unfold should_ignore
  have hc : (mergedIgnore cfg).contains d = true :=
    List.elem_eq_true_of_mem (List.mem_append_left _ hd)
  by_cases hh : (!cfg.show_hidden && strStarts d ".") = true
  · rw [if_pos hh]
  · rw [if_neg hh, if_pos hc]

/-- Witness for C4 at a concrete input: the default name `__pycache__` is
ignored under the default configuration. -/
theorem C4_should_ignore_amended_witness :
    "__pycache__" ∈ DEFAULT_IGNORE ∧
      should_ignore ⟨none, false, false, false, false, []⟩ "__pycache__" = true :=
  ⟨by decide, C4_should_ignore_amended.2 ⟨none, false, false, false, false, []⟩
    "__pycache__" (by decide)⟩

/-- C4 counterexample: with the user pattern `**` (which both begins and
ends with `*`), the claim's `prefix*` clause says `*x` is ignored (it
starts with the prefix `*`), but the code's `elif` only tries the
`*suffix` rule and `*x` does not end in `*`, so `should_ignore` is false. -/
theorem C4_counterexample :
    should_ignore ⟨none, false, false, false, false, ["**"]⟩ "*x" = false ∧
      claimIgnoreSpec ⟨none, false, false, false, false, ["**"]⟩ "*x" = true := by
  constructor <;> decide

/-- C8 (code bug): `generate_to_string` validates the root before any
traversal and returns a string for the Text, Markdown and JSON formats,
but its HTML branch (source line 780) calls `generate_tree_html(dir_path)`
without the required `tree_data` argument, so Python raises `TypeError`
instead of returning a string. -/
theorem C8_generate_to_string_bug :
    ∀ (cfg : TreeConfig) (e : FSEntry),
      (generate_to_string cfg .text (.isDir e)).isOk = true ∧
      (generate_to_string cfg .markdown (.isDir e)).isOk = true ∧
      (generate_to_string cfg .json (.isDir e)).isOk = true ∧
      generate_to_string cfg .html (.isDir e) =
        .error "TypeError: generate_tree_html() missing 1 required positional argument: tree_data" ∧
      (∀ fmt, generate_to_string cfg fmt .missing = .error "Directory not found") ∧
      (∀ fmt f, generate_to_string cfg fmt (.notDir f) = .error "Not a directory") :=
  fun _ _ => ⟨rfl, rfl, rfl, rfl, fun _ => rfl, fun _ _ => rfl⟩

theorem skipped_aux : ∀ n : Nat,
    (∀ e : FSEntry, sizeOf e ≤ n → ∀ cfg pre depth,
      (generate_tree_text cfg e pre depth).2.skipped = 0 ∧
      (generate_tree_markdown cfg e depth).2.skipped = 0 ∧
      (generate_tree_json cfg e depth).2.skipped = 0) ∧
    (∀ es : List FSEntry, sizeOf es ≤ n → ∀ cfg pre depth,
      (goText cfg pre depth es).2.skipped = 0 ∧
      (goMd cfg depth es).2.skipped = 0 ∧
      (goJson cfg depth es).2.skipped = 0) := by
  intro n
  induction n with
  | zero =>
    constructor
    · intro e he; have := one_le_sizeOf_entry e; omega
    · intro es hes; have := one_le_sizeOf_entries es; omega
  | succ n ih =>
    obtain ⟨ihE, ihL⟩ := ih
    constructor
    · intro e he cfg pre depth
      cases e with
      | file nm sz pm =>
        by_cases hd : depthExceeded cfg depth = true <;>
          refine ⟨?_, ?_, ?_⟩ <;>
            simp [generate_tree_text, generate_tree_markdown, generate_tree_json, hd,
              oneError, emptyStats]
      | dir nm pm lst =>
        cases lst with
        | error m =>
          by_cases hd : depthExceeded cfg depth = true <;>
            refine ⟨?_, ?_, ?_⟩ <;>
              simp [generate_tree_text, generate_tree_markdown, generate_tree_json, hd,
                oneError, emptyStats]
        | ok l =>
          by_cases hd : depthExceeded cfg depth = true
          · refine ⟨?_, ?_, ?_⟩ <;>
              simp [generate_tree_text, generate_tree_markdown, generate_tree_json, hd,
                emptyStats]
          · have hlt := sizeOf_renderedChildren_lt cfg nm pm l
            have hle : sizeOf (renderedChildren cfg l) ≤ n := by omega
            refine ⟨?_, ?_, ?_⟩
            · have h := (ihL _ hle cfg pre depth).1
              simpa [generate_tree_text, hd] using h
            · have h := (ihL _ hle cfg pre depth).2.1
              simpa [generate_tree_markdown, hd] using h
            · have h := (ihL _ hle cfg pre depth).2.2
              simpa [generate_tree_json, hd] using h
    · intro es hes cfg pre depth
      cases es with
      | nil => refine ⟨?_, ?_, ?_⟩ <;> simp [goText, goMd, goJson, emptyStats]
      | cons entry rest =>
        have hsz : sizeOf (entry :: rest) = 1 + sizeOf entry + sizeOf rest := by simp
        have h1 : sizeOf entry ≤ n := by omega
        have h2 : sizeOf rest ≤ n := by omega
        have E := ihE entry h1
        have E1 : ∀ c p d, (generate_tree_text c entry p d).2.skipped = 0 :=
          fun c p d => (E c p d).1
        have E2 : ∀ c d, (generate_tree_markdown c entry d).2.skipped = 0 :=
          fun c d => (E c "" d).2.1
        have E3 : ∀ c d, (generate_tree_json c entry d).2.skipped = 0 :=
          fun c d => (E c "" d).2.2
        have L := ihL rest h2 cfg pre depth
        refine ⟨?_, ?_, ?_⟩
        · cases hdir : entry.isDir <;>
            simp [goText, hdir, skipped_add, emptyStats, oneDir, oneFile, L.1, E1]
        · cases hdir : entry.isDir <;>
            simp [goMd, hdir, skipped_add, emptyStats, oneDir, oneFile, L.2.1, E2]
        · cases hdir : entry.isDir <;>
            simp [goJson, hdir, skipped_add, emptyStats, oneDir, oneFile, L.2.2, E3]

/-- C10: no operation ever increments `skipped`: the statistics delta of
every generator run, and of every successful `generate_to_string` call,
has `skipped = 0`, so the counter keeps its initial value. -/
theorem C10_skipped_never_incremented :
    ∀ (cfg : TreeConfig) (e : FSEntry) (pre : String) (depth : Nat),
      (generate_tree_text cfg e pre depth).2.skipped = 0 ∧
      (generate_tree_markdown cfg e depth).2.skipped = 0 ∧
      (generate_tree_json cfg e depth).2.skipped = 0 ∧
      (∀ (fmt : OutputFormat) (ps : PathState) (s : String) (st : TreeStats),
        generate_to_string cfg fmt ps = .ok (s, st) → st.skipped = 0) := by
  intro cfg e pre depth
  obtain ⟨hE, _⟩ := skipped_aux (sizeOf e)
  have h := hE e (Nat.le_refl _) cfg pre depth
  refine ⟨h.1, h.2.1, h.2.2, ?_⟩
  intro fmt ps s st hok
  cases ps with
  | missing => simp [generate_to_string] at hok
  | notDir f => simp [generate_to_string] at hok
  | isDir f =>
    obtain ⟨hF, _⟩ := skipped_aux (sizeOf f)
    have hf := hF f (Nat.le_refl _) cfg "" 0
    cases fmt with
    | text =>
      simp [generate_to_string] at hok
      rw [← hok.2]
      exact hf.1
    | markdown =>
      simp [generate_to_string] at hok
      rw [← hok.2]
      exact hf.2.1
    | html => simp [generate_to_string] at hok
    | json =>
      simp [generate_to_string] at hok
      rw [← hok.2]
      exact hf.2.2

/-- Witness for C10 at a concrete input: a run over a one-file directory
ends with `skipped = 0`. -/
theorem C10_skipped_never_incremented_witness :
    (generate_tree_text ⟨none, false, false, false, false, []⟩
      (.dir "r" none (.ok [.file "a.txt" none none])) "" 0).2.skipped = 0 :=
  (C10_skipped_never_incremented ⟨none, false, false, false, false, []⟩
    (.dir "r" none (.ok [.file "a.txt" none none])) "" 0).1

/-- Substring occurrence test on character lists (Python's `in` on
strings), used to state that an output line does not contain a message. -/
def occursIn (needle : List Char) : List Char → Bool
  | [] => needle.isEmpty
  | c :: rest => needle.isPrefixOf (c :: rest) || occursIn needle rest

theorem statsAdd_zero_left (b : TreeStats) : emptyStats + b = b := by
  cases b
  simp [statsAdd, emptyStats]

theorem statsAdd_assoc (a b c : TreeStats) : a + b + c = a + (b + c) := by
  simp [statsAdd]
  omega

theorem goJson_append (cfg : TreeConfig) (depth : Nat) (es1 es2 : List FSEntry) :
    goJson cfg depth (es1 ++ es2) =
      ((goJson cfg depth es1).1 ++ (goJson cfg depth es2).1,
        (goJson cfg depth es1).2 + (goJson cfg depth es2).2) := by
  induction es1 with
  | nil => simp [goJson, statsAdd_zero_left]
  | cons e t ih => simp [goJson, ih, statsAdd_assoc]

/-- C3 (amended): a directory whose listing fails increments `errors` by
exactly one in every format and traversal of siblings continues unaffected
(the JSON loop treats entries independently); however only the JSON
rendering represents the failure as an error node carrying the message —
the text and Markdown renderings show the directory with no contents and
no message. -/
theorem C3_listing_failure_amended :
    ∀ (cfg : TreeConfig) (n : String) (p : Option String) (m pre : String) (depth : Nat),
      depthExceeded cfg depth = false →
      generate_tree_json cfg (.dir n p (.error m)) depth = (.dirJ n [] (some m), oneError) ∧
      generate_tree_text cfg (.dir n p (.error m)) pre depth = ([], oneError) ∧
      generate_tree_markdown cfg (.dir n p (.error m)) depth = ([], oneError) ∧
      (∀ es1 es2, goJson cfg depth (es1 ++ es2) =
        ((goJson cfg depth es1).1 ++ (goJson cfg depth es2).1,
          (goJson cfg depth es1).2 + (goJson cfg depth es2).2)) := by
  intro cfg n p m pre depth h
  refine ⟨?_, ?_, ?_, goJson_append cfg depth⟩ <;>
    simp [generate_tree_json, generate_tree_text, generate_tree_markdown, h]

/-- Witness for C3 at a concrete input: an unreadable directory under the
default configuration. -/
theorem C3_listing_failure_amended_witness :
    depthExceeded ⟨none, false, false, false, false, []⟩ 0 = false ∧
      generate_tree_json ⟨none, false, false, false, false, []⟩
        (.dir "bad" none (.error "Permission denied")) 0 =
        (.dirJ "bad" [] (some "Permission denied"), oneError) :=
  ⟨by decide, (C3_listing_failure_amended ⟨none, false, false, false, false, []⟩
    "bad" none "Permission denied" "" 0 (by decide)).1⟩

/-- C3 counterexample: for a root containing one unreadable directory,
`errors` is incremented and traversal continues, but the text rendering is
the single line `└── bad` — no output format other than JSON carries the
failure message, contradicting the claim's "in every output format". -/
theorem C3_counterexample :
    generate_tree_text ⟨none, false, false, false, false, []⟩
      (.dir "r" none (.ok [.dir "bad" none (.error "Permission denied")])) "" 0 =
      (["└── bad"], ⟨1, 0, 0, 1⟩) ∧
    (["└── bad"].all fun ln => !occursIn ("Permission denied").data ln.data) = true ∧
    (generate_tree_json ⟨none, false, false, false, false, []⟩
      (.dir "r" none (.ok [.dir "bad" none (.error "Permission denied")])) 0).1 =
      .dirJ "r" [.dirJ "bad" [] (some "Permission denied")] none := by
  refine ⟨?_, by decide, ?_⟩ <;>
    simp [generate_tree_text, goText, generate_tree_json, goJson, renderedChildren,
      sortEntries, List.insertionSort, List.orderedInsert, depthExceeded, keepEntry,
      should_ignore, mergedIgnore, DEFAULT_IGNORE, strStarts, strEnds, strHasStar,
      get_entry_info, FSEntry.name, FSEntry.isDir, FSEntry.fsize, ELBOW, TEE,
      emptyStats, oneDir, oneError, statsAdd]

theorem json_counts_aux : ∀ n : Nat,
    (∀ e : FSEntry, sizeOf e ≤ n → ∀ cfg depth,
      jFileCount (generate_tree_json cfg e depth).1 =
        (generate_tree_json cfg e depth).2.total_files ∧
      (cfg.max_depth = none →
        jDirCount (generate_tree_json cfg e depth).1 =
          (generate_tree_json cfg e depth).2.total_dirs + 1)) ∧
    (∀ es : List FSEntry, sizeOf es ≤ n → ∀ cfg depth,
      jFileCountL (goJson cfg depth es).1 = (goJson cfg depth es).2.total_files ∧
      (cfg.max_depth = none →
        jDirCountL (goJson cfg depth es).1 = (goJson cfg depth es).2.total_dirs)) := by
  intro n
  induction n with
  | zero =>
    constructor
    · intro e he; have := one_le_sizeOf_entry e; omega
    · intro es hes; have := one_le_sizeOf_entries es; omega
  | succ n ih =>
    obtain ⟨ihE, ihL⟩ := ih
    constructor
    · intro e he cfg depth
      cases e with
      | file nm sz pm =>
        by_cases hd : depthExceeded cfg depth = true
        · exact ⟨by simp [generate_tree_json, hd, jFileCount, emptyStats],
            fun hm => by simp [depthExceeded, hm] at hd⟩
        · exact ⟨by simp [generate_tree_json, hd, jFileCount, jFileCountL, oneError],
            fun _ => by simp [generate_tree_json, hd, jDirCount, jDirCountL, oneError]⟩
      | dir nm pm lst =>
        cases lst with
        | error m =>
          by_cases hd : depthExceeded cfg depth = true
          · exact ⟨by simp [generate_tree_json, hd, jFileCount, emptyStats],
              fun hm => by simp [depthExceeded, hm] at hd⟩
          · exact ⟨by simp [generate_tree_json, hd, jFileCount, jFileCountL, oneError],
              fun _ => by simp [generate_tree_json, hd, jDirCount, jDirCountL, oneError]⟩
        | ok l =>
          have hlt := sizeOf_renderedChildren_lt cfg nm pm l
          have hle : sizeOf (renderedChildren cfg l) ≤ n := by omega
          have hL := ihL _ hle cfg depth
          by_cases hd : depthExceeded cfg depth = true
          · exact ⟨by simp [generate_tree_json, hd, jFileCount, emptyStats],
              fun hm => by simp [depthExceeded, hm] at hd⟩
          · constructor
            · simpa [generate_tree_json, hd, jFileCount] using hL.1
            · intro hm
              have hdc := hL.2 hm
              simp [generate_tree_json, hd, jDirCount]
              omega
    · intro es hes cfg depth
      cases es with
      | nil =>
        exact ⟨by simp [goJson, jFileCountL, emptyStats],
          fun _ => by simp [goJson, jDirCountL, emptyStats]⟩
      | cons entry rest =>
        have hsz : sizeOf (entry :: rest) = 1 + sizeOf entry + sizeOf rest := by simp
        have h1 : sizeOf entry ≤ n := by omega
        have h2 : sizeOf rest ≤ n := by omega
        have E := ihE entry h1 cfg (depth + 1)
        have L := ihL rest h2 cfg depth
        constructor
        · cases hdir : entry.isDir <;>
            simp [goJson, hdir, jFileCountL, jFileCount, files_add, oneDir, oneFile,
              emptyStats, E.1, L.1]
        · intro hm
          cases hdir : entry.isDir <;>
            simp [goJson, hdir, jDirCountL, jDirCount, dirs_add, oneDir, oneFile,
              emptyStats, E.2 hm, L.2 hm]
          · omega

/-- C7 (amended): in the produced JSON the number of objects with
`type = "file"` equals the run's `total_files` delta for every
configuration; with `max_depth` unset the number of objects with
`type = "directory"` equals `total_dirs + 1` — the root object is rendered
as a directory but never counted as a traversed entry, so the two counts
differ by exactly one. -/
theorem C7_json_counts_amended :
    ∀ (cfg : TreeConfig) (e : FSEntry) (depth : Nat),
      jFileCount (generate_tree_json cfg e depth).1 =
        (generate_tree_json cfg e depth).2.total_files ∧
      (cfg.max_depth = none →
        jDirCount (generate_tree_json cfg e depth).1 =
          (generate_tree_json cfg e depth).2.total_dirs + 1) :=
  fun cfg e depth => (json_counts_aux (sizeOf e)).1 e (Nat.le_refl _) cfg depth

/-- Witness for C7 at a concrete input: a root with one file has one
file object (= `total_files`) and one directory object (= `total_dirs + 1`). -/
theorem C7_json_counts_amended_witness :
    (⟨none, false, false, false, false, []⟩ : TreeConfig).max_depth = none ∧
      jDirCount (generate_tree_json ⟨none, false, false, false, false, []⟩
        (.dir "root" none (.ok [.file "a.txt" none none])) 0).1 =
        (generate_tree_json ⟨none, false, false, false, false, []⟩
          (.dir "root" none (.ok [.file "a.txt" none none])) 0).2.total_dirs + 1 :=
  ⟨rfl, (C7_json_counts_amended ⟨none, false, false, false, false, []⟩
    (.dir "root" none (.ok [.file "a.txt" none none])) 0).2 rfl⟩

/-- C7 counterexample: for an empty root directory the JSON output is one
directory object while `total_dirs` is 0 — the root is rendered but not
counted, so the claimed equality fails. -/
theorem C7_counterexample :
    jDirCount (generate_tree_json ⟨none, false, false, false, false, []⟩
      (.dir "root" none (.ok [])) 0).1 = 1 ∧
    (generate_tree_json ⟨none, false, false, false, false, []⟩
      (.dir "root" none (.ok [])) 0).2.total_dirs = 0 := by
  constructor <;>
    simp [generate_tree_json, goJson, renderedChildren, sortEntries, List.insertionSort,
      depthExceeded, jDirCount, jDirCountL, emptyStats]

theorem not_ignored_of_mem_renderedChildren (cfg : TreeConfig) (l : List FSEntry)
    (e : FSEntry) (h : e ∈ renderedChildren cfg l) : should_ignore cfg e.name = false := by
  unfold renderedChildren at h
  have hk := List.of_mem_filter h
  unfold keepEntry at hk
  simp only [Bool.and_eq_true, Bool.not_eq_true'] at hk
  exact hk.1

theorem walkT_name (cfg : TreeConfig) (e : FSEntry) (depth : Nat) :
    nodeName (walkT cfg e depth) = e.name := by
  cases e with
  | file nm sz pm => simp [walkT, nodeName, FSEntry.name]
  | dir nm pm lst =>
    cases lst <;> by_cases hd : depthExceeded cfg depth = true <;>
      simp [walkT, hd, nodeName, FSEntry.name]

theorem json_names_aux : ∀ n : Nat,
    (∀ e : FSEntry, sizeOf e ≤ n → ∀ cfg depth,
      should_ignore cfg e.name = false →
      ∀ m ∈ jNames (generate_tree_json cfg e depth).1, should_ignore cfg m = false) ∧
    (∀ es : List FSEntry, sizeOf es ≤ n → ∀ cfg depth,
      (∀ x ∈ es, should_ignore cfg x.name = false) →
      ∀ m ∈ jNamesL (goJson cfg depth es).1, should_ignore cfg m = false) := by
  intro n
  induction n with
  | zero =>
    constructor
    · intro e he; have := one_le_sizeOf_entry e; omega
    · intro es hes; have := one_le_sizeOf_entries es; omega
  | succ n ih =>
    obtain ⟨ihE, ihL⟩ := ih
    constructor
    · intro e he cfg depth hnm m hm
      cases e with
      | file nm sz pm =>
        by_cases hd : depthExceeded cfg depth = true
        · simp [generate_tree_json, hd, jNames] at hm
        · simp [generate_tree_json, hd, jNames, jNamesL] at hm
          subst hm
          exact hnm
      | dir nm pm lst =>
        cases lst with
        | error msg =>
          by_cases hd : depthExceeded cfg depth = true
          · simp [generate_tree_json, hd, jNames] at hm
          · simp [generate_tree_json, hd, jNames, jNamesL] at hm
            subst hm
            exact hnm
        | ok l =>
          by_cases hd : depthExceeded cfg depth = true
          · simp [generate_tree_json, hd, jNames] at hm
          · have hlt := sizeOf_renderedChildren_lt cfg nm pm l
            have hle : sizeOf (renderedChildren cfg l) ≤ n := by omega
            simp only [generate_tree_json, hd, Bool.false_eq_true, if_false, jNames,
              List.mem_cons] at hm
            rcases hm with hm | hm
            · subst hm; exact hnm
            · exact ihL _ hle cfg depth
                (fun x hx => not_ignored_of_mem_renderedChildren cfg l x hx) m hm
    · intro es hes cfg depth hall m hm
      cases es with
      | nil => simp [goJson, jNamesL] at hm
      | cons entry rest =>
        have hsz : sizeOf (entry :: rest) = 1 + sizeOf entry + sizeOf rest := by simp
        have h1 : sizeOf entry ≤ n := by omega
        have h2 : sizeOf rest ≤ n := by omega
        have hrest : ∀ x ∈ rest, should_ignore cfg x.name = false :=
          fun x hx => hall x (List.mem_cons_of_mem _ hx)
        have hent : should_ignore cfg entry.name = false := hall entry (List.mem_cons_self _ _)
        cases hdir : entry.isDir with
        | true =>
          simp only [goJson, hdir, if_true, jNamesL, List.mem_append] at hm
          rcases hm with hm | hm
          · exact ihE entry h1 cfg (depth + 1) hent m hm
          · exact ihL rest h2 cfg depth hrest m hm
        | false =>
          simp only [goJson, hdir, Bool.false_eq_true, if_false, jNamesL, jNames,
            List.mem_append, List.mem_singleton] at hm
          rcases hm with hm | hm
          · subst hm; exact hent
          · exact ihL rest h2 cfg depth hrest m hm

theorem walk_names_aux : ∀ n : Nat,
    (∀ e : FSEntry, sizeOf e ≤ n → ∀ cfg depth,
      ∀ m ∈ nodeDescNames (walkT cfg e depth), should_ignore cfg m = false) ∧
    (∀ es : List FSEntry, sizeOf es ≤ n → ∀ cfg depth,
      (∀ x ∈ es, should_ignore cfg x.name = false) →
      ∀ m ∈ descGo (walkChildren cfg depth es), should_ignore cfg m = false) := by
  intro n
  induction n with
  | zero =>
    constructor
    · intro e he; have := one_le_sizeOf_entry e; omega
    · intro es hes; have := one_le_sizeOf_entries es; omega
  | succ n ih =>
    obtain ⟨ihE, ihL⟩ := ih
    constructor
    · intro e he cfg depth m hm
      cases e with
      | file nm sz pm => simp [walkT, nodeDescNames] at hm
      | dir nm pm lst =>
        cases lst with
        | error msg =>
          by_cases hd : depthExceeded cfg depth = true <;>
            simp [walkT, hd, nodeDescNames, descGo] at hm
        | ok l =>
          by_cases hd : depthExceeded cfg depth = true
          case pos => simp [walkT, hd, nodeDescNames, descGo] at hm
          case neg =>
            have hlt := sizeOf_renderedChildren_lt cfg nm pm l
            have hle : sizeOf (renderedChildren cfg l) ≤ n := by omega
            simp only [walkT, hd, Bool.false_eq_true, if_false, nodeDescNames] at hm
            exact ihL _ hle cfg (depth + 1)
              (fun x hx => not_ignored_of_mem_renderedChildren cfg l x hx) m hm
    · intro es hes cfg depth hall m hm
      cases es with
      | nil => simp [walkChildren, descGo] at hm
      | cons entry rest =>
        have hsz : sizeOf (entry :: rest) = 1 + sizeOf entry + sizeOf rest := by simp
        have h1 : sizeOf entry ≤ n := by omega
        have h2 : sizeOf rest ≤ n := by omega
        have hrest : ∀ x ∈ rest, should_ignore cfg x.name = false :=
          fun x hx => hall x (List.mem_cons_of_mem _ hx)
        have hent : should_ignore cfg entry.name = false := hall entry (List.mem_cons_self _ _)
        simp only [walkChildren, descGo, List.mem_cons, List.mem_append] at hm
        rcases hm with hm | hm | hm
        · rw [hm, walkT_name]; exact hent
        · exact ihE entry h1 cfg depth m hm
        · exact ihL rest h2 cfg depth hrest m hm

/-- C9 (amended): below the root, no node of the canonical tree and no
object of the JSON output carries a name that `should_ignore` accepts;
the root directory's own name, however, is rendered unconditionally and
may itself be an ignored name. -/
theorem C9_no_ignored_names_amended :
    ∀ (cfg : TreeConfig) (e : FSEntry) (depth : Nat),
      (∀ m ∈ nodeDescNames (walkT cfg e depth), should_ignore cfg m = false) ∧
      (∀ m ∈ jChildNames (generate_tree_json cfg e depth).1, should_ignore cfg m = false) := by
  intro cfg e depth
  constructor
  · exact (walk_names_aux (sizeOf e)).1 e (Nat.le_refl _) cfg depth
  · intro m hm
    cases e with
    | file nm sz pm =>
      by_cases hd : depthExceeded cfg depth = true <;>
        simp [generate_tree_json, hd, jChildNames, jNamesL] at hm
    | dir nm pm lst =>
      cases lst with
      | error msg =>
        by_cases hd : depthExceeded cfg depth = true <;>
          simp [generate_tree_json, hd, jChildNames, jNamesL] at hm
      | ok l =>
        by_cases hd : depthExceeded cfg depth = true
        · simp [generate_tree_json, hd, jChildNames] at hm
        · simp only [generate_tree_json, hd, Bool.false_eq_true, if_false,
            jChildNames] at hm
          exact (json_names_aux (sizeOf (renderedChildren cfg l))).2 _ (Nat.le_refl _)
            cfg depth (fun x hx => not_ignored_of_mem_renderedChildren cfg l x hx) m hm

/-- Witness for C9 at a concrete input: `a.txt` appears below the root of
a one-file tree and is indeed not an ignored name. -/
theorem C9_no_ignored_names_amended_witness :
    "a.txt" ∈ nodeDescNames (walkT ⟨none, false, false, false, false, []⟩
      (.dir "r" none (.ok [.file "a.txt" none none])) 0) ∧
      should_ignore ⟨none, false, false, false, false, []⟩ "a.txt" = false := by
  have hmem : "a.txt" ∈ nodeDescNames (walkT ⟨none, false, false, false, false, []⟩
      (.dir "r" none (.ok [.file "a.txt" none none])) 0) := by
    simp [walkT, walkChildren, nodeDescNames, descGo, nodeName, renderedChildren,
      sortEntries, List.insertionSort, depthExceeded, keepEntry, should_ignore,
      mergedIgnore, DEFAULT_IGNORE, strStarts, strEnds, strHasStar, FSEntry.name,
      FSEntry.isDir]
  exact ⟨hmem, (C9_no_ignored_names_amended ⟨none, false, false, false, false, []⟩
    (.dir "r" none (.ok [.file "a.txt" none none])) 0).1 "a.txt" hmem⟩

/-- C9 counterexample: a root directory named `node_modules` — an ignored
name — is rendered verbatim as the first (and only) line of the text
output and as the name of the root JSON object. -/
theorem C9_counterexample :
    should_ignore ⟨none, false, false, false, false, []⟩ "node_modules" = true ∧
      generate_to_string ⟨none, false, false, false, false, []⟩ .text
        (.isDir (.dir "node_modules" none (.ok []))) = .ok ("node_modules", emptyStats) ∧
      jNames (generate_tree_json ⟨none, false, false, false, false, []⟩
        (.dir "node_modules" none (.ok [])) 0).1 = ["node_modules"] := by
  refine ⟨by decide, ?_, ?_⟩ <;>
    simp [generate_to_string, generate_tree_text, goText, generate_tree_json, goJson,
      renderedChildren, sortEntries, List.insertionSort, depthExceeded, keepEntry,
      should_ignore, mergedIgnore, DEFAULT_IGNORE, strStarts, strEnds, strHasStar,
      FSEntry.name, joinLines, jNames, jNamesL, emptyStats] <;>
    (try rfl)

theorem entryLE_of_keyOf_eq {a b : FSEntry} (h : keyOf a = keyOf b) : entryLE a b :=
  Or.inr ⟨congrArg Prod.fst h, le_of_eq (congrArg (fun k => k.2.data) h)⟩

theorem filter_orderedInsert (p : FSEntry → Bool) (a : FSEntry) (l : List FSEntry)
    (hp : p a = true → ∀ e, p e = true → keyOf e = keyOf a) :
    (List.orderedInsert entryLE a l).filter p =
      if p a then a :: l.filter p else l.filter p := by
  induction l with
  | nil => by_cases ha : p a <;> simp [List.orderedInsert, List.filter_cons, ha]
  | cons b t ih =>
    by_cases hab : entryLE a b
    · simp only [List.orderedInsert, if_pos hab]
      by_cases ha : p a <;> simp [List.filter_cons, ha]
    · simp only [List.orderedInsert, if_neg hab]
      rw [List.filter_cons, ih]
      by_cases ha : p a
      · have hb : p b = false := by
          by_contra hb'
          have hb2 : p b = true := by simpa using hb'
          exact hab (entryLE_of_keyOf_eq (hp ha b hb2).symm)
        simp [ha, hb, List.filter_cons]
      · by_cases hb : p b = true <;> simp [ha, hb, List.filter_cons]

theorem filter_sortEntries (p : FSEntry → Bool)
    (hp : ∀ e1 e2, p e1 = true → p e2 = true → keyOf e1 = keyOf e2) (l : List FSEntry) :
    (sortEntries l).filter p = l.filter p := by
  induction l with
  | nil => rfl
  | cons a t ih =>
    show (List.orderedInsert entryLE a (List.insertionSort entryLE t)).filter p = _
    rw [filter_orderedInsert p a _ (fun ha e hpe => hp e a hpe ha)]
    have ih2 : List.filter p (List.insertionSort entryLE t) = List.filter p t := ih
    by_cases ha : p a <;> simp [List.filter_cons, ha, ih2]

/-- C5 (amended): within every directory's rendered children, in every
format, entries are sorted by the key `(not is_dir, name.lower())` — so
all directories precede all files and names are case-insensitive
lexicographically non-decreasing — and entries whose keys tie (same kind,
names equal case-insensitively) keep the order of the underlying
`iterdir()` listing, not the order of their original names: `sorted` is
stable. -/
theorem C5_children_ordering_amended :
    ∀ (cfg : TreeConfig) (l : List FSEntry),
      List.Sorted entryLE (renderedChildren cfg l) ∧
      List.Pairwise (fun a b => b.isDir = true → a.isDir = true) (renderedChildren cfg l) ∧
      (∀ k : Bool × String,
        (renderedChildren cfg l).filter (fun e => keyOf e == k) =
          (l.filter (keepEntry cfg)).filter (fun e => keyOf e == k)) := by
  intro cfg l
  have hs : List.Sorted entryLE (renderedChildren cfg l) :=
    (List.sorted_insertionSort entryLE l).filter (keepEntry cfg)
  refine ⟨hs, ?_, ?_⟩
  · refine hs.imp ?_
    intro a b hab hbd
    rcases hab with ⟨h1, h2⟩ | ⟨h1, h2⟩
    · rw [keyOf, hbd] at h2
      simp at h2
    · rw [keyOf, keyOf, hbd] at h1
      simp at h1
      simpa using h1
  · intro k
    unfold renderedChildren
    rw [List.filter_filter, List.filter_filter]
    exact filter_sortEntries _
      (fun e1 e2 h1 h2 => by
        simp only [Bool.and_eq_true, beq_iff_eq] at h1 h2
        rw [h1.1, h2.1]) l

/-- C5 counterexample: two files whose names differ only in case are
rendered in `iterdir()` order (`b.txt` before `B.txt`), although the
original-name order the claim demands for ties is `B.txt` before `b.txt`. -/
theorem C5_counterexample :
    (renderedChildren ⟨none, false, false, false, false, []⟩
      [.file "b.txt" none none, .file "B.txt" none none]).map FSEntry.name =
      ["b.txt", "B.txt"] ∧
    "B.txt".data < "b.txt".data ∧
    (generate_tree_text ⟨none, false, false, false, false, []⟩
      (.dir "r" none (.ok [.file "b.txt" none none, .file "B.txt" none none])) "" 0).1 =
      ["├── b.txt", "└── B.txt"] := by
  refine ⟨by decide, by decide, ?_⟩
  simp +decide [generate_tree_text, goText, renderedChildren, sortEntries,
    List.insertionSort, List.orderedInsert, entryLE, keyOf, depthExceeded, keepEntry,
    should_ignore, mergedIgnore, DEFAULT_IGNORE, strStarts, strEnds, strHasStar,
    get_entry_info, FSEntry.name, FSEntry.isDir, ELBOW, TEE, emptyStats]

theorem renderedChildren_max_irrel (cfg : TreeConfig) (m1 m2 : Option Nat)
    (l : List FSEntry) :
    renderedChildren { cfg with max_depth := m1 } l =
      renderedChildren { cfg with max_depth := m2 } l := rfl

theorem walk_trunc_aux : ∀ n : Nat,
    (∀ e : FSEntry, sizeOf e ≤ n → ∀ (cfg : TreeConfig) (N depth : Nat), depth ≤ N + 1 →
      walkT { cfg with max_depth := some N } e depth =
        truncateNode (N + 1 - depth) (walkT { cfg with max_depth := none } e depth)) ∧
    (∀ es : List FSEntry, sizeOf es ≤ n → ∀ (cfg : TreeConfig) (N depth : Nat), depth ≤ N + 1 →
      walkChildren { cfg with max_depth := some N } depth es =
        truncateL (N + 1 - depth) (walkChildren { cfg with max_depth := none } depth es)) := by
  intro n
  induction n with
  | zero =>
    constructor
    · intro e he; have := one_le_sizeOf_entry e; omega
    · intro es hes; have := one_le_sizeOf_entries es; omega
  | succ n ih =>
    obtain ⟨ihE, ihL⟩ := ih
    constructor
    · intro e he cfg N depth hdep
      have hdN : depthExceeded { cfg with max_depth := none } depth = false := rfl
      cases e with
      | file nm sz pm => cases hk : N + 1 - depth <;> simp [walkT, truncateNode]
      | dir nm pm lst =>
        by_cases hNd : N < depth
        · have hdz : N + 1 - depth = 0 := by omega
          have hdE : depthExceeded { cfg with max_depth := some N } depth = true := by
            simp [depthExceeded, hNd]
          cases lst with
          | error m => simp only [walkT, hdE, hdN, hdz, if_true, Bool.false_eq_true,
              if_false, truncateNode]
          | ok l => simp only [walkT, hdE, hdN, hdz, if_true, Bool.false_eq_true,
              if_false, truncateNode]
        · have hdE : depthExceeded { cfg with max_depth := some N } depth = false := by
            simp [depthExceeded]
            omega
          have hk : N + 1 - depth = (N - depth) + 1 := by omega
          cases lst with
          | error m =>
            simp only [walkT, hdE, hdN, hk, Bool.false_eq_true, if_false, truncateNode]
          | ok l =>
            have hlt := sizeOf_renderedChildren_lt { cfg with max_depth := some N } nm pm l
            have hle : sizeOf (renderedChildren { cfg with max_depth := some N } l) ≤ n := by
              omega
            have hQ := ihL _ hle cfg N (depth + 1) (by omega)
            have hk2 : N + 1 - (depth + 1) = N - depth := by omega
            rw [hk2] at hQ
            simp only [walkT, hdE, hdN, hk, Bool.false_eq_true, if_false, truncateNode]
            rw [← renderedChildren_max_irrel cfg (some N) none l]
            exact congrArg (Node.dirN nm pm) hQ
    · intro es hes cfg N depth hdep
      cases es with
      | nil => simp [walkChildren, truncateL]
      | cons entry rest =>
        have hsz : sizeOf (entry :: rest) = 1 + sizeOf entry + sizeOf rest := by simp
        have h1 : sizeOf entry ≤ n := by omega
        have h2 : sizeOf rest ≤ n := by omega
        simp only [walkChildren, truncateL]
        rw [ihE entry h1 cfg N depth hdep, ihL rest h2 cfg N depth hdep]

/-- C2 (amended): the tree produced with `max_depth = N` is the unbounded
tree truncated `N + 1` levels below the root: a non-root node at depth `d`
is rendered iff it is reachable and `d ≤ N + 1` (the engine lists a
directory's entries iff the directory's own depth is `≤ N`), directories
at depth exactly `N + 1` render childless, and with `max_depth` unset
every reachable non-ignored node appears. -/
theorem C2_depth_bound_amended :
    ∀ (cfg : TreeConfig) (N : Nat) (e : FSEntry) (depth : Nat), depth ≤ N + 1 →
      walkT { cfg with max_depth := some N } e depth =
        truncateNode (N + 1 - depth) (walkT { cfg with max_depth := none } e depth) :=
  fun cfg N e depth hdep =>
    (walk_trunc_aux (sizeOf e)).1 e (Nat.le_refl _) cfg N depth hdep

/-- Witness for C2 at a concrete input: a two-level tree walked with
`max_depth = 0` from depth 0. -/
theorem C2_depth_bound_amended_witness :
    (0 : Nat) ≤ 0 + 1 ∧
      walkT { (⟨none, false, false, false, false, []⟩ : TreeConfig) with
          max_depth := some 0 }
        (.dir "r" none (.ok [.dir "a" none (.ok [.file "c.txt" none none])])) 0 =
        truncateNode (0 + 1 - 0)
          (walkT { (⟨none, false, false, false, false, []⟩ : TreeConfig) with
              max_depth := none }
            (.dir "r" none (.ok [.dir "a" none (.ok [.file "c.txt" none none])])) 0) :=
  ⟨by decide, C2_depth_bound_amended ⟨none, false, false, false, false, []⟩ 0
    (.dir "r" none (.ok [.dir "a" none (.ok [.file "c.txt" none none])])) 0 (by decide)⟩

/-- C2 counterexample: with `max_depth = 0` the claim says only the root
(depth 0) may render, yet a file at depth 1 appears in the text output and
in the JSON output. -/
theorem C2_counterexample :
    (generate_tree_text ⟨some 0, false, false, false, false, []⟩
      (.dir "r" none (.ok [.file "a.txt" none none])) "" 0).1 = ["└── a.txt"] ∧
    jNames (generate_tree_json ⟨some 0, false, false, false, false, []⟩
      (.dir "r" none (.ok [.file "a.txt" none none])) 0).1 = ["r", "a.txt"] := by
  constructor <;>
    simp [generate_tree_text, goText, generate_tree_json, goJson, renderedChildren,
      sortEntries, List.insertionSort, depthExceeded, keepEntry, should_ignore,
      mergedIgnore, DEFAULT_IGNORE, strStarts, strEnds, strHasStar, get_entry_info,
      FSEntry.name, FSEntry.isDir, FSEntry.fsize, ELBOW, TEE, emptyStats, jNames,
      jNamesL]

theorem walkT_isDir (cfg : TreeConfig) (e : FSEntry) (depth : Nat) :
    nodeIsDir (walkT cfg e depth) = e.isDir := by
  cases e with
  | file nm sz pm => simp [walkT, nodeIsDir, FSEntry.isDir]
  | dir nm pm lst =>
    cases lst <;> by_cases hd : depthExceeded cfg depth = true <;>
      simp [walkT, hd, nodeIsDir, FSEntry.isDir]

theorem walkT_info (cfg : TreeConfig) (e : FSEntry) (depth : Nat) :
    nodeInfo cfg (walkT cfg e depth) = get_entry_info cfg e := by
  cases e with
  | file nm sz pm =>
    simp [walkT, nodeInfo, get_entry_info, nodeIsDir, nodeSize, nodePerms,
      FSEntry.isDir, FSEntry.fsize, FSEntry.fperms]
  | dir nm pm lst =>
    cases lst <;> by_cases hd : depthExceeded cfg depth = true <;>
      simp [walkT, hd, nodeInfo, get_entry_info, nodeIsDir, nodeSize, nodePerms,
        FSEntry.isDir, FSEntry.fsize, FSEntry.fperms]

theorem walkChildren_isEmpty (cfg : TreeConfig) (depth : Nat) (es : List FSEntry) :
    (walkChildren cfg depth es).isEmpty = es.isEmpty := by
  cases es <;> simp [walkChildren]

theorem walkChildren_nil (cfg : TreeConfig) (depth : Nat) :
    walkChildren cfg depth [] = [] := by
  simp [walkChildren]

theorem walkChildren_cons (cfg : TreeConfig) (depth : Nat) (e : FSEntry)
    (rest : List FSEntry) :
    walkChildren cfg depth (e :: rest) = walkT cfg e depth :: walkChildren cfg depth rest := by
  simp [walkChildren]

theorem projection_aux : ∀ n : Nat,
    (∀ e : FSEntry, sizeOf e ≤ n → ∀ cfg (pre : String) depth,
      (generate_tree_text cfg e pre depth).1 = textOfNode cfg pre (walkT cfg e depth) ∧
      (generate_tree_markdown cfg e depth).1 = mdOfNode cfg depth (walkT cfg e depth) ∧
      (cfg.max_depth = none → e.isDir = true →
        (generate_tree_json cfg e depth).1 = jsonOfNode cfg (walkT cfg e depth))) ∧
    (∀ es : List FSEntry, sizeOf es ≤ n → ∀ cfg (pre : String) depth,
      (goText cfg pre depth es).1 = textGo cfg pre (walkChildren cfg (depth + 1) es) ∧
      (goMd cfg depth es).1 = mdGo cfg depth (walkChildren cfg (depth + 1) es) ∧
      (cfg.max_depth = none →
        (goJson cfg depth es).1 = jsonGo cfg (walkChildren cfg (depth + 1) es))) := by
  intro n
  induction n with
  | zero =>
    constructor
    · intro e he; have := one_le_sizeOf_entry e; omega
    · intro es hes; have := one_le_sizeOf_entries es; omega
  | succ n ih =>
    obtain ⟨ihE, ihL⟩ := ih
    constructor
    · intro e he cfg pre depth
      cases e with
      | file nm sz pm =>
        refine ⟨?_, ?_, fun _ hdir => by simp [FSEntry.isDir] at hdir⟩ <;>
          by_cases hd : depthExceeded cfg depth = true <;>
            simp [generate_tree_text, generate_tree_markdown, walkT, hd,
              textOfNode, mdOfNode]
      | dir nm pm lst =>
        cases lst with
        | error m =>
          refine ⟨?_, ?_, ?_⟩
          · by_cases hd : depthExceeded cfg depth = true <;>
              simp [generate_tree_text, walkT, hd, textOfNode, textGo]
          · by_cases hd : depthExceeded cfg depth = true <;>
              simp [generate_tree_markdown, walkT, hd, mdOfNode, mdGo]
          · intro hm _
            have hd : depthExceeded cfg depth = false := by simp [depthExceeded, hm]
            simp [generate_tree_json, walkT, hd, jsonOfNode]
        | ok l =>
          by_cases hd : depthExceeded cfg depth = true
          · refine ⟨?_, ?_, ?_⟩
            · simp [generate_tree_text, walkT, hd, textOfNode, textGo]
            · simp [generate_tree_markdown, walkT, hd, mdOfNode, mdGo]
            · intro hm _
              simp [depthExceeded, hm] at hd
          · have hlt := sizeOf_renderedChildren_lt cfg nm pm l
            have hle : sizeOf (renderedChildren cfg l) ≤ n := by omega
            have Q := ihL _ hle cfg pre depth
            refine ⟨?_, ?_, ?_⟩
            · simp only [generate_tree_text, walkT, hd, Bool.false_eq_true, if_false,
                textOfNode]
              exact Q.1
            · simp only [generate_tree_markdown, walkT, hd, Bool.false_eq_true, if_false,
                mdOfNode]
              exact Q.2.1
            · intro hm _
              simp only [generate_tree_json, walkT, hd, Bool.false_eq_true, if_false,
                jsonOfNode]
              exact congrArg (fun ch => JVal.dirJ nm ch none) (Q.2.2 hm)
    · intro es hes cfg pre depth
      cases es with
      | nil =>
        exact ⟨by simp [goText, walkChildren_nil, textGo],
          by simp [goMd, walkChildren_nil, mdGo],
          fun _ => by simp [goJson, walkChildren_nil, jsonGo]⟩
      | cons entry rest =>
        have hsz : sizeOf (entry :: rest) = 1 + sizeOf entry + sizeOf rest := by simp
        have h1 : sizeOf entry ≤ n := by omega
        have h2 : sizeOf rest ≤ n := by omega
        have Pent := ihE entry h1
        have Qrest := ihL rest h2 cfg pre depth
        cases entry with
        | file fn fs fp =>
          refine ⟨?_, ?_, ?_⟩
          · simp [goText, walkChildren_cons, textGo, walkT, FSEntry.isDir, FSEntry.name,
              nodeName, nodeInfo, get_entry_info, nodeIsDir, nodeSize, nodePerms,
              FSEntry.fsize, FSEntry.fperms, textOfNode, Qrest.1]
            simp only [walkChildren_isEmpty]
          · simp [goMd, walkChildren_cons, mdGo, walkT, FSEntry.isDir, FSEntry.name,
              nodeName, nodeInfo, get_entry_info, nodeIsDir, nodeSize, nodePerms,
              FSEntry.fsize, FSEntry.fperms, Qrest.2.1]
          · intro hm
            simp [goJson, walkChildren_cons, jsonGo, walkT, FSEntry.isDir, FSEntry.name,
              jsonOfNode, FSEntry.fsize, Qrest.2.2 hm]
        | dir dn dp dl =>
          have Pent1 : ∀ (p : String) (d : Nat),
              (generate_tree_text cfg (.dir dn dp dl) p d).1 =
                textOfNode cfg p (walkT cfg (.dir dn dp dl) d) :=
            fun p d => (Pent cfg p d).1
          have Pent2 : ∀ d : Nat,
              (generate_tree_markdown cfg (.dir dn dp dl) d).1 =
                mdOfNode cfg d (walkT cfg (.dir dn dp dl) d) :=
            fun d => (Pent cfg "" d).2.1
          refine ⟨?_, ?_, ?_⟩
          · simp [goText, walkChildren_cons, textGo, FSEntry.isDir, FSEntry.name,
              walkT_name, walkT_info, Pent1, Qrest.1]
            simp only [walkChildren_isEmpty]
            exact ⟨trivial, trivial⟩
          · simp [goMd, walkChildren_cons, mdGo, FSEntry.isDir, FSEntry.name,
              walkT_name, walkT_info, walkT_isDir, Pent2, Qrest.2.1]
          · intro hm
            have Pent3 : ∀ d : Nat,
                (generate_tree_json cfg (.dir dn dp dl) d).1 =
                  jsonOfNode cfg (walkT cfg (.dir dn dp dl) d) :=
              fun d => (Pent cfg "" d).2.2 hm rfl
            simp [goJson, walkChildren_cons, jsonGo, FSEntry.isDir, Pent3, Qrest.2.2 hm]

/-- C1 (amended): the text and Markdown generators are, for every
configuration, projections of the single canonical tree `walkT` — they
include exactly the same entries with the same filtering and sibling
ordering; the JSON generator is such a projection too whenever `max_depth`
is unset (on directory inputs).  With `max_depth` set, JSON diverges:
a directory at depth `max_depth + 1` becomes a bare nameless `{}` while
text and Markdown still print its name. -/
theorem C1_renderers_projections_amended :
    ∀ (cfg : TreeConfig) (e : FSEntry) (pre : String) (depth : Nat),
      (generate_tree_text cfg e pre depth).1 = textOfNode cfg pre (walkT cfg e depth) ∧
      (generate_tree_markdown cfg e depth).1 = mdOfNode cfg depth (walkT cfg e depth) ∧
      (cfg.max_depth = none → e.isDir = true →
        (generate_tree_json cfg e depth).1 = jsonOfNode cfg (walkT cfg e depth)) :=
  fun cfg e pre depth => (projection_aux (sizeOf e)).1 e (Nat.le_refl _) cfg pre depth

/-- Witness for C1 at a concrete input: all three renderers of a one-file
tree project the same canonical tree. -/
theorem C1_renderers_projections_amended_witness :
    (generate_tree_text ⟨none, false, false, false, false, []⟩
        (.dir "r" none (.ok [.file "a.txt" none none])) "" 0).1 =
      textOfNode ⟨none, false, false, false, false, []⟩ ""
        (walkT ⟨none, false, false, false, false, []⟩
          (.dir "r" none (.ok [.file "a.txt" none none])) 0) ∧
    (generate_tree_json ⟨none, false, false, false, false, []⟩
        (.dir "r" none (.ok [.file "a.txt" none none])) 0).1 =
      jsonOfNode ⟨none, false, false, false, false, []⟩
        (walkT ⟨none, false, false, false, false, []⟩
          (.dir "r" none (.ok [.file "a.txt" none none])) 0) :=
  ⟨(C1_renderers_projections_amended ⟨none, false, false, false, false, []⟩
      (.dir "r" none (.ok [.file "a.txt" none none])) "" 0).1,
    (C1_renderers_projections_amended ⟨none, false, false, false, false, []⟩
      (.dir "r" none (.ok [.file "a.txt" none none])) "" 0).2.2 rfl rfl⟩

/-- C1 counterexample: with `max_depth = 0`, the text renderer prints the
depth-1 directory `a` while the JSON renderer emits a bare `{}` without a
name for it — the renderers do not include the same set of entries. -/
theorem C1_counterexample :
    (generate_tree_text ⟨some 0, false, false, false, false, []⟩
      (.dir "r" none (.ok [.dir "a" none (.ok [])])) "" 0).1 = ["└── a"] ∧
    (generate_tree_json ⟨some 0, false, false, false, false, []⟩
      (.dir "r" none (.ok [.dir "a" none (.ok [])])) 0).1 = .dirJ "r" [.empty] none ∧
    jNames (generate_tree_json ⟨some 0, false, false, false, false, []⟩
      (.dir "r" none (.ok [.dir "a" none (.ok [])])) 0).1 = ["r"] := by
  refine ⟨?_, ?_, ?_⟩ <;>
    simp [generate_tree_text, goText, generate_tree_json, goJson, renderedChildren,
      sortEntries, List.insertionSort, depthExceeded, keepEntry, should_ignore,
      mergedIgnore, DEFAULT_IGNORE, strStarts, strEnds, strHasStar, get_entry_info,
      FSEntry.name, FSEntry.isDir, ELBOW, TEE, emptyStats, jNames, jNamesL]
